import Mathlib

/-!
Verification of the crawl/resume engine of `data_retrieving.py`
(class `YachtPartsParser`), via a shallow embedding in Lean.

Pure helpers of the source are translated directly; the stateful
orchestrator `get_all_data` is modelled as explicit state passing over a
`Site` abstraction of the external collaborators (browser, HTML parser),
producing a trace of the durable appends (CSV writes, ledger writes) so
that ordering properties can be stated and proved.
-/

namespace YachtParts

/-! ## String helpers -/

/-- `self.base_link` from `YachtPartsParser.__init__`. -/
def base_link : String := "https://yacht-parts.ru/"

/-- `listStarts p s` decides whether the character list `p` is an initial
segment of `s` (used to talk about absolute URLs). -/
def listStarts : List Char → List Char → Bool
  | [], _ => true
  | _ :: _, [] => false
  | a :: as, b :: bs => a = b && listStarts as bs

/-- A string is an absolute URL of this crawler when it starts with the
scheme prefix of `base_link`. -/
def isAbs (s : String) : Bool := listStarts "https://".data s.data

/-- `get_absolute_link` (data_retrieving.py:137-146): if the base link ends
with `'/'` and the relative link starts with `'/'`, the leading slash of the
relative link is stripped before concatenation.  (The source would raise
`IndexError` on an empty relative link; the model's `head?` check returns the
un-stripped concatenation there instead, a case never exercised.) -/
def get_absolute_link (rel : String) : String :=
  if base_link.data.getLast? = some '/' ∧ rel.data.head? = some '/' then
    base_link ++ String.mk (rel.data.drop 1)
  else
    base_link ++ rel

/-- `get_pagination_page_link` (data_retrieving.py:223-233):
`link + f'?PAGEN_1={page_num}'`. -/
def get_pagination_page_link (link : String) (page_num : Nat) : String :=
  link ++ "?PAGEN_1=" ++ toString page_num

theorem listStarts_append (p s t : List Char) (h : listStarts p s = true) :
    listStarts p (s ++ t) = true := by
  induction p generalizing s with
  | nil => rfl
  | cons a as ih =>
    cases s with
    | nil => simp [listStarts] at h
    | cons b bs =>
      simp only [List.cons_append, listStarts, Bool.and_eq_true] at h ⊢
      exact ⟨h.1, ih bs h.2⟩

theorem isAbs_append (s t : String) (h : isAbs s = true) : isAbs (s ++ t) = true := by
  have hdata : (s ++ t).data = s.data ++ t.data := String.data_append s t
  unfold isAbs at h ⊢
  rw [hdata]
  exact listStarts_append _ _ _ h

theorem isAbs_base_append (s : String) : isAbs (base_link ++ s) = true := by
  have : isAbs base_link = true := by decide
  exact isAbs_append _ _ this

theorem isAbs_get_absolute_link (rel : String) :
    isAbs (get_absolute_link rel) = true := by
  unfold get_absolute_link
  split
  · exact isAbs_base_append _
  · exact isAbs_base_append _

theorem isAbs_pagination (link : String) (n : Nat) (h : isAbs link = true) :
    isAbs (get_pagination_page_link link n) = true := by
  unfold get_pagination_page_link
  exact isAbs_append _ _ (isAbs_append _ _ h)

/-! ## Price normalization (`get_specific_data`, data_retrieving.py:547-559)

The source takes the stripped text of the price tag and applies
`price.replace(' ', '')`, then `price.replace('.', '')`, then
`price.replace('руб', '')`, in that order; if the price tag is absent the
price is `None`. -/

/-- Removal of every (non-overlapping, left-to-right) occurrence of the
three-character substring `руб`, as `str.replace('руб', '')` does. -/
def rmRub : List Char → List Char
  | 'р' :: 'у' :: 'б' :: rest => rmRub rest
  | c :: rest => c :: rmRub rest
  | [] => []

/-- The three `replace` calls of `get_specific_data` on the price text:
spaces, then dots, then `руб`, in the order written in the source. -/
def normalize_price (s : String) : String :=
  String.mk (rmRub ((s.data.filter (fun c => c ≠ ' ')).filter (fun c => c ≠ '.')))

/-- The price field produced by `get_specific_data`: `None` when the price
tag is absent, the normalized tag text otherwise. -/
def price_of (price_tag : Option String) : Option String :=
  price_tag.map normalize_price

/-- C8: Price extraction maps the raw price text `"1 234.56 руб"` to
`"123456"` (spaces removed, then dots, then the substring `руб`), and an
absent price tag yields `None`. -/
theorem price_normalization :
    price_of (some "1 234.56 руб") = some "123456" ∧ price_of none = none := by
  constructor
  · rfl
  · rfl

/-! ## `set_max_csv_size` (data_retrieving.py:591-610)

The loop calls `csv.field_size_limit(size)` and, on `OverflowError`,
replaces `size` by `int(size / 10)` and retries.  On a 64-bit CPython,
`field_size_limit` accepts exactly the values that fit into a C `long`,
i.e. sizes up to `2^63 - 1` for nonnegative input.

`size / 10` is *float* true division: CPython computes the quotient
correctly rounded to the nearest double and raises `OverflowError` when
the rounded result exceeds the largest finite double.  The largest finite
double is `2^1024 - 2^971`; its successor in round-to-nearest-even is
`2^1024`, and their midpoint `2^1024 - 2^970` ties to the even mantissa
`2^1024`, so the division overflows exactly when
`size / 10 ≥ 2^1024 - 2^970`, i.e. when `size ≥ 10 * (2^1024 - 2^970)`.
That `OverflowError` is raised *inside* the `except OverflowError`
handler (line 609), so it escapes the `try` and the method raises without
ever setting a limit — the model returns `none` for that case.  For the
non-overflowing case the quotient is modelled as the integer quotient
`size / 10`; the correctly rounded float result differs from it by at
most one part in `2^52`, which none of the stated properties (strict
decrease, eventual acceptance, the overflow boundary) depend on. -/

/-- The largest field size `csv.field_size_limit` accepts (64-bit C `long`). -/
def LONG_MAX : Nat := 2 ^ 63 - 1

/-- The least nonnegative integer whose float true-division by 10
overflows a double: `10 * (2^1024 - 2^970)` (about `1.80e309`). -/
def FLOAT_OVERFLOW : Nat := 10 * (2 ^ 1024 - 2 ^ 970)

/-- `set_max_csv_size`: the size that is finally accepted by the loop, or
`none` when `int(size / 10)` itself raises `OverflowError` inside the
handler and the method propagates it without setting any limit. -/
def set_max_csv_size (size : Nat) : Option Nat :=
  if size ≤ LONG_MAX then some size
  else if FLOAT_OVERFLOW ≤ size then none
  else set_max_csv_size (size / 10)
termination_by size
decreasing_by
  have h10 : (1:Nat) < 10 := by omega
  have hpos : 0 < size := by
    simp only [not_le] at *
    omega
  exact Nat.div_lt_self hpos h10

set_option maxRecDepth 8000 in
theorem set_max_csv_size_below (n : Nat) :
    n < FLOAT_OVERFLOW →
    ∃ m, set_max_csv_size n = some m ∧ m ≤ LONG_MAX := by
  induction n using Nat.strong_induction_on with
  | _ n ih =>
    intro hlt
    unfold set_max_csv_size
    split
    case isTrue h => exact ⟨n, rfl, h⟩
    case isFalse h =>
      rw [if_neg (by omega)]
      refine ih (n / 10) ?_ ?_
      · exact Nat.div_lt_self (by omega) (by omega)
      · have := Nat.div_le_self n 10
        omega

set_option maxRecDepth 8000 in
/-- C9 counterexample: at the nonnegative input `10^400` the loop never
reaches a size that is set successfully — the first `int(size / 10)` in
the `except` handler overflows the float conversion and the method raises
`OverflowError` instead, so the claim fails as universally stated. -/
theorem set_max_csv_size_overflow :
    set_max_csv_size (10 ^ 400) = none := by
  unfold set_max_csv_size
  rw [if_neg (by decide), if_pos (by decide)]

set_option maxRecDepth 8000 in
/-- C9 (amended): for every nonnegative input below
`10 * (2^1024 - 2^970)` (≈ 1.80e309) the loop terminates with a
successfully set size within the `field_size_limit` bound; at or above
that bound the float division `int(size / 10)` inside the handler itself
raises `OverflowError`, escaping the `try`, and no limit is ever set. -/
theorem set_max_csv_size_outcome (n : Nat) :
    (n < FLOAT_OVERFLOW →
      ∃ m, set_max_csv_size n = some m ∧ m ≤ LONG_MAX) ∧
    (FLOAT_OVERFLOW ≤ n → set_max_csv_size n = none) := by
  constructor
  · exact set_max_csv_size_below n
  · intro hge
    have hbig : LONG_MAX < FLOAT_OVERFLOW := by decide
    unfold set_max_csv_size
    rw [if_neg (by omega), if_pos hge]

set_option maxRecDepth 8000 in
/-- C9 witness: the amended theorem applied at `10^9` (accepted after
successive divisions — here immediately) and at `10^310` (the float
division overflows and the method raises). -/
theorem set_max_csv_size_outcome_witness :
    (∃ m, set_max_csv_size (10 ^ 9) = some m ∧ m ≤ LONG_MAX) ∧
    set_max_csv_size (10 ^ 310) = none :=
  ⟨(set_max_csv_size_outcome (10 ^ 9)).1 (by decide),
   (set_max_csv_size_outcome (10 ^ 310)).2 (by decide)⟩

/-! ## Listing pages: `get_product_links` (data_retrieving.py:235-293)

The document tree of one listing page is modelled by the pieces the
function queries: whether either product-list container is found, the
title tags (each with the result of `title.find('a')`: `none` when no
anchor exists — the `AttributeError` branch — and otherwise the value of
the anchor's `href` attribute), and the pagination control, modelled as
the list of its `li` elements' class lists. -/

/-- One `item-title` / `item-name-cell` tag: `a` is the result of
`title.find('a')`; the inner option is `link_tag.attrs.get('href')`. -/
structure TitleTag where
  a : Option (Option String)
deriving DecidableEq

/-- A listing-page document, restricted to what `get_product_links` reads. -/
structure ListingSoup where
  hasDisplayList : Bool
  hasModuleTable : Bool
  titles : List TitleTag
  paginator : Option (List (List String))
deriving DecidableEq

/-- The two ways `get_product_links` can raise: `ProductLinksNotFound`
(both container strategies fail, or no title tags), and the uncaught
`AttributeError` from `next_btn.attrs` when the paginator has no
`flex-nav-next` element. -/
inductive PErr where
  | productLinksNotFound
  | attributeError
deriving DecidableEq

/-- `paginator.find('li', {'class': 'flex-nav-next'})`: the first `li`
whose class list contains `flex-nav-next` (BeautifulSoup matches a class
filter against each class of the element). -/
def find_next (lis : List (List String)) : Option (List String) :=
  lis.find? (fun cls => cls.contains "flex-nav-next")

/-- `get_product_links`: returns the extracted product hrefs and the
last-page indicator, or one of the two errors above. -/
def get_product_links (s : ListingSoup) : Except PErr (List (Option String) × Bool) :=
  if ¬(s.hasDisplayList || s.hasModuleTable) then Except.error PErr.productLinksNotFound
  else if s.titles.isEmpty then Except.error PErr.productLinksNotFound
  else
    let links := s.titles.filterMap (fun t => t.a)
    match s.paginator with
    | none => Except.ok (links, true)
    | some lis =>
      match find_next lis with
      | none => Except.error PErr.attributeError
      | some cls => Except.ok (links, cls.contains "disabled")

/-- C5 counterexample: a listing page whose pagination control is present
but has no `flex-nav-next` element.  The claim says `is_last_page` is
`False` in every case other than "no paginator" and "next disabled", but
here the code raises `AttributeError` (from `next_btn.attrs` on `None`)
and returns nothing at all. -/
theorem last_page_claim_counterexample :
    get_product_links
      { hasDisplayList := true, hasModuleTable := false,
        titles := [{ a := some (some "/p1/") }],
        paginator := some [["flex-pag-prev"]] }
      = Except.error PErr.attributeError := by
  rfl

/-- C5 (amended): for a listing page whose product container is found and
which has at least one title tag: no paginator means the page is last;
a paginator whose first `flex-nav-next` element exists means last iff that
element's class list carries `disabled`; a paginator with no
`flex-nav-next` element makes the extraction fail with `AttributeError`. -/
theorem last_page_detection (s : ListingSoup)
    (hc : (s.hasDisplayList || s.hasModuleTable) = true)
    (ht : s.titles.isEmpty = false) :
    (s.paginator = none →
      get_product_links s = Except.ok (s.titles.filterMap (fun t => t.a), true)) ∧
    (∀ lis cls, s.paginator = some lis →
      find_next lis = some cls →
      get_product_links s
        = Except.ok (s.titles.filterMap (fun t => t.a), cls.contains "disabled")) ∧
    (∀ lis, s.paginator = some lis →
      find_next lis = none →
      get_product_links s = Except.error PErr.attributeError) := by
  refine ⟨?_, ?_, ?_⟩
  · intro hp
    simp [get_product_links, hc, ht, hp]
  · intro lis cls hp hfind
    simp [get_product_links, hc, ht, hp, hfind]
  · intro lis hp hfind
    simp [get_product_links, hc, ht, hp, hfind]

/-- C5 witness: the amended theorem applied to three concrete pages, one
per case. -/
theorem last_page_detection_witness :
    get_product_links
      { hasDisplayList := true, hasModuleTable := false,
        titles := [{ a := some (some "/p/") }], paginator := none }
      = Except.ok ([some "/p/"], true) ∧
    get_product_links
      { hasDisplayList := false, hasModuleTable := true,
        titles := [{ a := some (some "/q/") }],
        paginator := some [["flex-nav-prev"], ["flex-nav-next", "disabled"]] }
      = Except.ok ([some "/q/"], true) ∧
    get_product_links
      { hasDisplayList := true, hasModuleTable := false,
        titles := [{ a := some (some "/r/") }],
        paginator := some [["flex-nav-prev"], ["flex-nav-next"]] }
      = Except.ok ([some "/r/"], false) := by
  refine ⟨?_, ?_, ?_⟩
  · exact (last_page_detection
      { hasDisplayList := true, hasModuleTable := false,
        titles := [{ a := some (some "/p/") }], paginator := none }
      (by decide) (by decide)).1 (by decide)
  · exact (last_page_detection
      { hasDisplayList := false, hasModuleTable := true,
        titles := [{ a := some (some "/q/") }],
        paginator := some [["flex-nav-prev"], ["flex-nav-next", "disabled"]] }
      (by decide) (by decide)).2.1 [["flex-nav-prev"], ["flex-nav-next", "disabled"]]
      ["flex-nav-next", "disabled"] (by decide) (by decide)
  · exact (last_page_detection
      { hasDisplayList := true, hasModuleTable := false,
        titles := [{ a := some (some "/r/") }],
        paginator := some [["flex-nav-prev"], ["flex-nav-next"]] }
      (by decide) (by decide)).2.1 [["flex-nav-prev"], ["flex-nav-next"]]
      ["flex-nav-next"] (by decide) (by decide)

/-! ## Category discovery: `get_categories` (data_retrieving.py:148-221)

The catalog page is modelled by what the function reads: the
`catalog_section_list` container (`none` when absent), holding the list of
`section_item` divs.  Each section item exposes the `li.name` element
(with its first anchor and its text) and the list of `li.sect`
sub-category elements (each with its first anchor, or `none`). -/

/-- An anchor tag: `attrs.get('href')` and `get_text(strip=True)`. -/
structure CatAnchor where
  href : Option String
  text : String
deriving DecidableEq

/-- The `li` with class `name` of one section item. -/
structure NameLi where
  a : Option CatAnchor
  text : String
deriving DecidableEq

/-- One `section_item` div: its `li.name` (or `none`) and its `li.sect`
elements, each reduced to the result of `sub_category.find('a')`. -/
structure MainCat where
  nameLi : Option NameLi
  sects : List (Option CatAnchor)
deriving DecidableEq

/-- The two brand-aggregator paths handled last
(`categories_to_extract`, data_retrieving.py:171-172). -/
def categories_to_extract : List String :=
  ["/catalog/other_brands/", "/catalog/osculati_catalogue/"]

/-- The link extracted by the sorting loop (data_retrieving.py:176-187):
`category.find('li', class 'name').find('a').attrs.get('href')`.
`none` models the `AttributeError` branch (the category is dropped from
both partitions); `some h` is the extracted `href` attribute, itself
optional. -/
def sortKey (c : MainCat) : Option (Option String) :=
  c.nameLi.bind (fun nl => nl.a.map (fun a => a.href))

/-- Whether the extracted link is one of the deferred brand paths
(`link in categories_to_extract`; Python's `None in tuple` is `False`). -/
def linkDeferred (h : Option String) : Bool :=
  match h with
  | some s => categories_to_extract.contains s
  | none => false

/-- The sorting loop: partitions the section items into
`ordered_main_categories` (normal) and `extracted_categories` (deferred),
preserving source order in each; items whose link extraction raises
`AttributeError` are dropped. -/
def partitionCats : List MainCat → List MainCat × List MainCat
  | [] => ([], [])
  | c :: rest =>
    let (no, ex) := partitionCats rest
    match sortKey c with
    | none => (no, ex)
    | some h => if linkDeferred h then (no, c :: ex) else (c :: no, ex)

/-- Predicate for the normal partition: link extracted and not deferred. -/
def isKeptNormal (c : MainCat) : Bool :=
  match sortKey c with
  | none => false
  | some h => !linkDeferred h

/-- Predicate for the deferred partition. -/
def isDeferred (c : MainCat) : Bool :=
  match sortKey c with
  | none => false
  | some h => linkDeferred h

/-- The main-category name (data_retrieving.py:193-201): the text of the
`li.name` element, or `''` when the lookup raises `AttributeError`. -/
def mainName (c : MainCat) : String :=
  match c.nameLi with
  | none => ""
  | some nl => nl.text

/-- The `(key, value)` pairs one section item contributes to the result
dictionary (data_retrieving.py:210-219): sub-categories without an anchor
are skipped; the key is `'main name; sub name'` and the value is the
sub-category's `href` attribute. -/
def sectEntries (c : MainCat) : List (String × Option String) :=
  c.sects.filterMap (fun s? => s?.map (fun a => (mainName c ++ "; " ++ a.text, a.href)))

/-- Python `dict` assignment on an insertion-ordered association list:
an existing key keeps its position and gets the new value, a fresh key is
appended at the end. -/
def dictInsert (d : List (String × Option String)) (k : String) (v : Option String) :
    List (String × Option String) :=
  if d.any (fun kv => kv.1 = k) then
    d.map (fun kv => if kv.1 = k then (k, v) else kv)
  else d ++ [(k, v)]

/-- The inner loop over one section item's sub-categories, inserting each
extracted entry into the accumulated dictionary. -/
def addCat (acc : List (String × Option String)) (c : MainCat) :
    List (String × Option String) :=
  (sectEntries c).foldl (fun a kv => dictInsert a kv.1 kv.2) acc

/-- The dictionary-building loop (data_retrieving.py:193-219): a section
item with zero `li.sect` elements makes the whole function return `{}`. -/
def buildDict : List MainCat → List (String × Option String) →
    List (String × Option String)
  | [], acc => acc
  | c :: rest, acc => if c.sects.isEmpty then [] else buildDict rest (addCat acc c)

/-- `get_categories`: empty result when the container or the section items
are missing; otherwise builds the dictionary over the partitioned,
normal-then-deferred category order. -/
def get_categories : Option (List MainCat) → List (String × Option String)
  | none => []
  | some mains =>
    if mains.isEmpty then [] else
      let p := partitionCats mains
      buildDict (p.1 ++ p.2) []

theorem partitionCats_eq_filter (mains : List MainCat) :
    partitionCats mains = (mains.filter isKeptNormal, mains.filter isDeferred) := by
  induction mains with
  | nil => rfl
  | cons c rest ih =>
    simp only [partitionCats, ih, List.filter_cons]
    cases hk : sortKey c with
    | none => simp [isKeptNormal, isDeferred, hk]
    | some h =>
      cases hd : linkDeferred h with
      | false => simp [isKeptNormal, isDeferred, hk, hd]
      | true => simp [isKeptNormal, isDeferred, hk, hd]

theorem dictInsert_fresh (d : List (String × Option String)) (k : String)
    (v : Option String) (h : ∀ kv ∈ d, kv.1 ≠ k) :
    dictInsert d k v = d ++ [(k, v)] := by
  unfold dictInsert
  rw [if_neg]
  intro hany
  rw [List.any_eq_true] at hany
  rcases hany with ⟨kv, hkv, hk⟩
  exact h kv hkv (by simpa using hk)

theorem foldl_dictInsert_fresh (l : List (String × Option String)) :
    ∀ (acc : List (String × Option String)),
    (∀ kv ∈ l, ∀ kv' ∈ acc, kv'.1 ≠ kv.1) →
    (l.map Prod.fst).Nodup →
    l.foldl (fun a kv => dictInsert a kv.1 kv.2) acc = acc ++ l := by
  induction l with
  | nil => intro acc _ _; simp
  | cons kv rest ih =>
    intro acc hfresh hnd
    simp only [List.foldl_cons]
    have h1 : dictInsert acc kv.1 kv.2 = acc ++ [(kv.1, kv.2)] :=
      dictInsert_fresh _ _ _ (fun kv' h => hfresh kv (by simp) kv' h)
    rw [h1]
    have hnd' : (rest.map Prod.fst).Nodup := by
      simpa using (List.nodup_cons.mp (by simpa using hnd)).2
    have hhd : kv.1 ∉ rest.map Prod.fst :=
      (List.nodup_cons.mp (by simpa using hnd)).1
    rw [ih (acc ++ [(kv.1, kv.2)]) ?_ hnd']
    · simp
    · intro kv2 h2 kv' h'
      rcases List.mem_append.mp h' with h' | h'
      · exact hfresh kv2 (by simp [h2]) kv' h'
      · simp only [List.mem_singleton] at h'
        subst h'
        intro hcontra
        exact hhd (by
          simp only [List.mem_map]
          exact ⟨kv2, h2, hcontra.symm⟩)

/-- Keys contributed by a list of section items, in emission order. -/
def keysOf (cs : List MainCat) : List String :=
  (cs.map (fun c => (sectEntries c).map Prod.fst)).flatten

theorem addCat_fresh (acc : List (String × Option String)) (c : MainCat)
    (hfresh : ∀ kv ∈ sectEntries c, ∀ kv' ∈ acc, kv'.1 ≠ kv.1)
    (hnd : ((sectEntries c).map Prod.fst).Nodup) :
    addCat acc c = acc ++ sectEntries c :=
  foldl_dictInsert_fresh _ acc hfresh hnd

theorem buildDict_append (cs : List MainCat) :
    ∀ (acc : List (String × Option String)),
    (∀ c ∈ cs, c.sects.isEmpty = false) →
    (acc.map Prod.fst ++ keysOf cs).Nodup →
    buildDict cs acc = acc ++ (cs.map sectEntries).flatten := by
  induction cs with
  | nil => intro acc _ _; simp [buildDict]
  | cons c rest ih =>
    intro acc hne hnd
    simp only [buildDict, hne c (by simp), Bool.false_eq_true, if_false]
    have hkeys : (acc.map Prod.fst ++ keysOf (c :: rest)).Nodup := hnd
    have hsplit : keysOf (c :: rest) = (sectEntries c).map Prod.fst ++ keysOf rest := by
      simp [keysOf]
    rw [hsplit] at hkeys
    rw [← List.append_assoc] at hkeys
    have hfresh : ∀ kv ∈ sectEntries c, ∀ kv' ∈ acc, kv'.1 ≠ kv.1 := by
      intro kv hkv kv' hkv'
      have h1 : kv'.1 ∈ acc.map Prod.fst := List.mem_map.mpr ⟨kv', hkv', rfl⟩
      have h2 : kv.1 ∈ (sectEntries c).map Prod.fst := List.mem_map.mpr ⟨kv, hkv, rfl⟩
      have hdisj := (List.nodup_append.mp hkeys).2.2
      intro he
      have hdisj2 := (List.nodup_append.mp ((List.nodup_append.mp hkeys).1)).2.2
      exact hdisj2 h1 (he ▸ h2)
    have hndc : ((sectEntries c).map Prod.fst).Nodup :=
      (List.nodup_append.mp ((List.nodup_append.mp hkeys).1)).2.1
    rw [addCat_fresh acc c hfresh hndc]
    rw [ih (acc ++ sectEntries c) (fun x hx => hne x (by simp [hx])) ?_]
    · simp
    · rw [List.map_append]
      exact hkeys

/-- C6: with the catalog container present, every surviving section item
having at least one sub-category, and all composite keys distinct, the
mapping returned by `get_categories` is exactly the entries of the normal
categories (in source order) followed by the entries of the two deferred
brand-aggregator categories (in source order): all deferred entries come
after all normal entries, and the function is a pure function of the page
content.  (The premise that the deferred paths occur among the categories
is recorded by `hdef`.) -/
theorem get_categories_ordering (mains : List MainCat)
    (hdef : ∃ c ∈ mains, isDeferred c = true)
    (hne : ∀ c ∈ mains, c.sects.isEmpty = false)
    (hnd : (keysOf (mains.filter isKeptNormal ++ mains.filter isDeferred)).Nodup) :
    get_categories (some mains)
      = ((mains.filter isKeptNormal).map sectEntries).flatten
        ++ ((mains.filter isDeferred).map sectEntries).flatten := by
  have hmains : mains.isEmpty = false := by
    rcases hdef with ⟨c, hc, _⟩
    cases mains with
    | nil => cases hc
    | cons a l => rfl
  show (if mains.isEmpty then [] else
      let p := partitionCats mains
      buildDict (p.1 ++ p.2) []) = _
  rw [partitionCats_eq_filter]
  simp only [hmains, Bool.false_eq_true, if_false]
  rw [buildDict_append _ []]
  · simp [keysOf]
  · intro c hc
    rcases List.mem_append.mp hc with h | h
    · exact hne c (List.mem_of_mem_filter h)
    · exact hne c (List.mem_of_mem_filter h)
  · simpa using hnd

/-- C6 witness: a concrete catalog with a deferred category between two
normal ones; both deferred entries end up last. -/
theorem get_categories_ordering_witness :
    get_categories (some
      [ { nameLi := some { a := some { href := some "/catalog/engine/", text := "" },
                           text := "Engine" },
          sects := [some { href := some "/catalog/engine/motors/", text := "Motors" }] },
        { nameLi := some { a := some { href := some "/catalog/other_brands/", text := "" },
                           text := "Brands" },
          sects := [some { href := some "/catalog/other_brands/acme/", text := "Acme" }] },
        { nameLi := some { a := some { href := some "/catalog/deck/", text := "" },
                           text := "Deck" },
          sects := [some { href := some "/catalog/deck/anchors/", text := "Anchors" },
                    some { href := some "/catalog/deck/ropes/", text := "Ropes" }] } ])
      = [("Engine; Motors", some "/catalog/engine/motors/"),
         ("Deck; Anchors", some "/catalog/deck/anchors/"),
         ("Deck; Ropes", some "/catalog/deck/ropes/"),
         ("Brands; Acme", some "/catalog/other_brands/acme/")] := by
  rw [get_categories_ordering]
  · rfl
  · decide
  · decide
  · decide

/-! ## Option enumeration: `iterate_options` (data_retrieving.py:297-347)

The option groups of a product page are modelled as lists of buttons; the
live UI state is the per-group selection (the index of the last clicked
button of each group).  Clicking a button makes it the `active` one of its
group; visibility is static (the independent-groups setting of the claims:
no selection changes any other button's visibility).  The generator is
modelled eagerly — its caller (`get_product_page_data`) always drains it —
as a function returning the list of yielded combinations together with the
final UI state.  Faithfully to the source, the recursion at a non-leaf
level drains the inner generator and discards its yields
(`for selected_options in self.iterate_options(...): pass`). -/

/-- One `li` option button: its `title` attribute, its `style` attribute
(`none` when absent) and its class attribute while not selected. -/
structure OptBtn where
  title : String
  style : Option String
  cls : String
deriving DecidableEq

/-- The UI selection state: for each group, the index of the clicked
(currently active) button, if any. -/
abbrev OptState := List (Option Nat)

/-- The visibility filter (data_retrieving.py:311-312): a button is kept
unless its `style` attribute equals exactly `'display: none;'`. -/
def optVisible (b : OptBtn) : Bool := !(b.style == some "display: none;")

/-- The visible buttons of one group, paired with their indices within the
group (re-read at traversal time; static in this model). -/
def visibleFrom (i : Nat) : List OptBtn → List (Nat × OptBtn)
  | [] => []
  | b :: rest =>
    if optVisible b then (i, b) :: visibleFrom (i + 1) rest
    else visibleFrom (i + 1) rest

/-- The visible buttons of a group with their indices. -/
def visibleBtns (g : List OptBtn) : List (Nat × OptBtn) := visibleFrom 0 g

/-- `btn.click()`: group `gi`'s active button becomes `bi`. -/
def clickBtn (st : OptState) (gi bi : Nat) : OptState := st.set gi (some bi)

/-- The dynamic `class` attribute of button `bi` of group `gi`: `'active'`
exactly when it is the selected one, otherwise its static class. -/
def btnClass (st : OptState) (gi bi : Nat) (b : OptBtn) : String :=
  if st.get? gi = some (some bi) then "active" else b.cls

/-- The titles of the active buttons of one group, scanning all `li`
elements (data_retrieving.py:333-341 filters `class == 'active'`). -/
def activeInGroup (st : OptState) (gi : Nat) : Nat → List OptBtn → List String
  | _, [] => []
  | bi, b :: rest =>
    (if btnClass st gi bi b = "active" then [b.title] else [])
      ++ activeInGroup st gi (bi + 1) rest

/-- The titles of all active buttons across all groups, in group order. -/
def activeTitles (gs : List (List OptBtn)) (st : OptState) : List String :=
  (activeGroups st 0 gs : List String)
where
  activeGroups (st : OptState) : Nat → List (List OptBtn) → List String
    | _, [] => []
    | gi, g :: rest => activeInGroup st gi 0 g ++ activeGroups st (gi + 1) rest

/-- The leaf level of `iterate_options` (`level == len(options_groups)-1`):
for each visible button, click it and yield the active titles across all
groups. -/
def iterLeaf (all : List (List OptBtn)) (lvl : Nat) :
    List (Nat × OptBtn) → OptState → List (List String) × OptState
  | [], st => ([], st)
  | (bi, _) :: rest, st =>
    let st1 := clickBtn st lvl bi
    let y := activeTitles all st1
    let r := iterLeaf all lvl rest st1
    (y :: r.1, r.2)

/-- A non-leaf level of `iterate_options`: for each visible button, click
it, then drain the recursive generator of the next level — discarding its
yields, exactly as the source's `for ...: pass` does — and move to the
next sibling button. -/
def iterNode (lvl : Nat) (descend : OptState → List (List String) × OptState) :
    List (Nat × OptBtn) → OptState → List (List String) × OptState
  | [], st => ([], st)
  | (bi, _) :: rest, st =>
    let st1 := clickBtn st lvl bi
    let inner := descend st1
    let r := iterNode lvl descend rest inner.2
    (r.1, r.2)

/-- One level of `iterate_options`, recursing over the remaining groups
(`rem` is the suffix of groups from the current level on). -/
def iterLevel (all : List (List OptBtn)) : List (List OptBtn) → OptState →
    List (List String) × OptState
  | [], st => ([], st)
  | [g], st => iterLeaf all (all.length - 1) (visibleBtns g) st
  | g :: g2 :: gs, st =>
    iterNode (all.length - (g :: g2 :: gs).length)
      (fun s => iterLevel all (g2 :: gs) s) (visibleBtns g) st

/-- `iterate_options(options_groups)` at level 0, fully drained by its
caller: the list of yielded combinations and the final UI state. -/
def iterate_options (gs : List (List OptBtn)) (st : OptState) :
    List (List String) × OptState :=
  iterLevel gs gs st

/-- C1: for a product page with two independent option groups of sizes 2
and 3, no hidden buttons and no dependent visibility, `iterate_options`
yields zero combinations, not the six the specification promises: the
non-leaf level drains the recursive generator with a bare `pass` and never
re-yields the inner results, so no leaf combination ever reaches the
caller.  (With a single group the leaf level does yield once per visible
button, confirming the leaf logic itself works.) -/
theorem iterate_options_two_groups_yields_nothing :
    (iterate_options
      [ [ { title := "Size: S", style := none, cls := "opt" },
          { title := "Size: M", style := none, cls := "opt" } ],
        [ { title := "Color: red", style := none, cls := "opt" },
          { title := "Color: green", style := none, cls := "opt" },
          { title := "Color: blue", style := none, cls := "opt" } ] ]
      [none, none]).1 = [] ∧
    (iterate_options
      [ [ { title := "Color: red", style := none, cls := "opt" },
          { title := "Color: green", style := none, cls := "opt" },
          { title := "Color: blue", style := none, cls := "opt" } ] ]
      [none]).1.length = 3 := by
  constructor
  · rfl
  · rfl

theorem visibleFrom_map_snd (g : List OptBtn) :
    ∀ i, (visibleFrom i g).map Prod.snd = g.filter optVisible := by
  induction g with
  | nil => intro i; rfl
  | cons b rest ih =>
    intro i
    simp only [visibleFrom, List.filter_cons]
    cases hv : optVisible b with
    | false => simpa using ih (i + 1)
    | true => simpa using ih (i + 1)

theorem visibleFrom_mem_bounds (g : List OptBtn) :
    ∀ i bi b, (bi, b) ∈ visibleFrom i g → i ≤ bi ∧ bi < i + g.length := by
  induction g with
  | nil => intro i bi b h; cases h
  | cons x rest ih =>
    intro i bi b h
    simp only [visibleFrom] at h
    by_cases hv : optVisible x = true
    · rw [if_pos hv] at h
      rcases List.mem_cons.mp h with h | h
      · obtain ⟨h1, h2⟩ := Prod.mk.injEq .. ▸ h
        simp only [List.length_cons]
        omega
      · have := ih (i + 1) bi b h
        simp only [List.length_cons]
        omega
    · rw [if_neg hv] at h
      have := ih (i + 1) bi b h
      simp only [List.length_cons]
      omega

theorem visibleFrom_get (g : List OptBtn) :
    ∀ i bi b, (bi, b) ∈ visibleFrom i g → g.get? (bi - i) = some b := by
  induction g with
  | nil => intro i bi b h; cases h
  | cons x rest ih =>
    intro i bi b h
    simp only [visibleFrom] at h
    by_cases hv : optVisible x = true
    · rw [if_pos hv] at h
      rcases List.mem_cons.mp h with h | h
      · obtain ⟨h1, h2⟩ := Prod.mk.injEq .. ▸ h
        subst h1; subst h2
        simp
      · have hb := visibleFrom_mem_bounds rest (i + 1) bi b h
        have := ih (i + 1) bi b h
        have hbi : bi - i = (bi - (i + 1)) + 1 := by omega
        rw [hbi]
        simpa using this
    · rw [if_neg hv] at h
      have hb := visibleFrom_mem_bounds rest (i + 1) bi b h
      have := ih (i + 1) bi b h
      have hbi : bi - i = (bi - (i + 1)) + 1 := by omega
      rw [hbi]
      simpa using this

theorem btnClass_hit (st : OptState) (gi bi : Nat) (b : OptBtn)
    (h : st.get? gi = some (some bi)) : btnClass st gi bi b = "active" :=
  if_pos h

theorem btnClass_pass (st : OptState) (gi bi : Nat) (b : OptBtn)
    (h : ¬ st.get? gi = some (some bi)) : btnClass st gi bi b = b.cls :=
  if_neg h

theorem activeInGroup_miss (i : Nat) (l : List OptBtn) :
    ∀ k : Nat, i < k → (∀ b ∈ l, b.cls ≠ "active") →
    activeInGroup [some i] 0 k l = [] := by
  induction l with
  | nil => intro k _ _; rfl
  | cons y ys ihy =>
    intro k hk hc
    simp only [activeInGroup]
    rw [btnClass_pass [some i] 0 k y
      (by simp only [List.get?, Option.some.injEq]; omega)]
    rw [if_neg (hc y (by simp))]
    simpa using ihy (k + 1) (by omega) (fun b hb => hc b (by simp [hb]))

theorem activeInGroup_single (g : List OptBtn) (i : Nat)
    (hcls : ∀ b ∈ g, b.cls ≠ "active") :
    ∀ j b, g.get? (i - j) = some b → j ≤ i →
    activeInGroup [some i] 0 j g = [b.title] := by
  induction g with
  | nil => intro j b h _; simp at h
  | cons x rest ih =>
    intro j b h hj
    by_cases hij : i = j
    · subst hij
      rw [Nat.sub_self] at h
      simp only [List.get?] at h
      injection h with heq
      subst heq
      simp only [activeInGroup]
      rw [btnClass_hit [some i] 0 i x (by simp)]
      rw [if_pos rfl]
      rw [activeInGroup_miss i rest (i + 1) (by omega)
        (fun c hc => hcls c (by simp [hc]))]
      simp
    · have hji : j < i := by omega
      have hsub : i - j = (i - (j + 1)) + 1 := by omega
      rw [hsub] at h
      simp only [List.get?] at h
      simp only [activeInGroup]
      rw [btnClass_pass [some i] 0 j x
        (by simp only [List.get?, Option.some.injEq]; omega)]
      rw [if_neg (hcls x (by simp))]
      have := ih (fun c hc => hcls c (by simp [hc])) (j + 1) b (by simpa using h)
        (by omega)
      simpa using this

theorem activeTitles_single (g : List OptBtn) (i : Nat) (b : OptBtn)
    (hcls : ∀ x ∈ g, x.cls ≠ "active")
    (hget : g.get? i = some b) :
    activeTitles [g] [some i] = [b.title] := by
  unfold activeTitles
  rw [show activeTitles.activeGroups [some i] 0 [g]
    = activeInGroup [some i] 0 0 g ++ activeTitles.activeGroups [some i] 1 [] from rfl]
  rw [show activeTitles.activeGroups [some i] 1 ([] : List (List OptBtn)) = [] from rfl]
  rw [List.append_nil]
  exact activeInGroup_single g i hcls 0 b (by simpa using hget) (by omega)

theorem iterLeaf_single (g : List OptBtn) (hcls : ∀ x ∈ g, x.cls ≠ "active") :
    ∀ (l : List (Nat × OptBtn)), (∀ p ∈ l, p ∈ visibleBtns g) →
    ∀ x : Option Nat, (iterLeaf [g] 0 l [x]).1 = l.map (fun p => [p.2.title]) := by
  intro l
  induction l with
  | nil => intro _ x; rfl
  | cons p rest ih =>
    intro hmem x
    obtain ⟨bi, b⟩ := p
    simp only [iterLeaf]
    have hv : (bi, b) ∈ visibleBtns g := hmem (bi, b) (by simp)
    have hget : g.get? bi = some b := by
      have := visibleFrom_get g 0 bi b hv
      simpa using this
    have hclick : clickBtn [x] 0 bi = [some bi] := rfl
    rw [hclick, activeTitles_single g bi b hcls hget]
    simp only [List.map_cons, List.cons.injEq, true_and]
    exact ih (fun q hq => hmem q (by simp [hq])) (some bi)

/-- C10: a button is excluded from enumeration exactly when its `style`
attribute equals the string `'display: none;'` (any other styling leaves
it visible), and on a single-group page every visible button — and only
those — is clicked and yields one enumerated combination carrying its
title. -/
theorem hidden_option_filter (g : List OptBtn)
    (hcls : ∀ x ∈ g, x.cls ≠ "active") :
    (∀ b : OptBtn, optVisible b = false ↔ b.style = some "display: none;") ∧
    (visibleBtns g).map Prod.snd = g.filter optVisible ∧
    (iterate_options [g] [none]).1 = (visibleBtns g).map (fun p => [p.2.title]) := by
  refine ⟨?_, ?_, ?_⟩
  · intro b
    constructor
    · intro h
      simp only [optVisible, Bool.not_eq_false'] at h
      exact eq_of_beq h
    · intro h
      simp [optVisible, h]
  · simpa using visibleFrom_map_snd g 0
  · show (iterLeaf [g] ([g].length - 1) (visibleBtns g) [none]).1 = _
    simp only [List.length_singleton, Nat.sub_self]
    exact iterLeaf_single g hcls (visibleBtns g) (fun p hp => hp) none

/-- C10 witness: a group with a normally-styled button, a button styled
`display:none` (no space — still visible and enumerated) and a button
styled exactly `display: none;` (hidden). -/
theorem hidden_option_filter_witness :
    (visibleBtns
      [ { title := "A", style := none, cls := "opt" },
        { title := "B", style := some "display:none", cls := "opt" },
        { title := "C", style := some "display: none;", cls := "opt" } ]).map Prod.snd
      = [ { title := "A", style := none, cls := "opt" },
          { title := "B", style := some "display:none", cls := "opt" } ] ∧
    (iterate_options
      [ [ { title := "A", style := none, cls := "opt" },
          { title := "B", style := some "display:none", cls := "opt" },
          { title := "C", style := some "display: none;", cls := "opt" } ] ]
      [none]).1 = [["A"], ["B"]] := by
  have h := hidden_option_filter
    [ { title := "A", style := none, cls := "opt" },
      { title := "B", style := some "display:none", cls := "opt" },
      { title := "C", style := some "display: none;", cls := "opt" } ]
    (by decide)
  refine ⟨?_, ?_⟩
  · rw [h.2.1]; rfl
  · rw [h.2.2]; rfl

/-! ## The orchestrator: `get_all_data` (data_retrieving.py:612-703)

The external world is abstracted as a `Site`:
* `categories` is the mapping returned by `get_categories`, in dictionary
  (insertion) order, as `(name, relative link)` pairs — the orchestrator
  consumes that result and is modelled against it (the discoverer itself
  is modelled and verified separately above);
* `pages link` is, for the category whose absolute link is `link`, the
  sequence of outcomes of `get_product_links` on its pagination pages
  1, 2, …: either the `ProductLinksNotFound` failure (`missing`) or the
  product hrefs and last-page flag.  The source loops page numbers without
  bound; the model supplies the finitely many pages the site has, and the
  loop traverses them in page-number order;
* `productData link` is the result of `get_product_page_data` for the
  product page at absolute link `link` — a list of per-variant
  dictionaries (string keys, optional string values).

The mutable state is `St`: the in-memory `collected_links` set, the CSV
file content (`none` while the file does not exist; rows thereafter), and
`trace`, a ghost log of the durable appends in the order they are
performed.  Each trace event records which call site performed it; the
actual line written to `collected_links.txt` is `evLine`.  A `csv` event
stands for one complete `with open(...)` block (open, optional header,
rows, close/flush). -/

/-- One extracted product dictionary (Python `dict[str, str | None]`). -/
abbrev PDict := List (String × Option String)

/-- A row of the CSV file: the single header row, or one data row. -/
inductive Row where
  | header (fields : List String)
  | data (d : PDict)
deriving DecidableEq

/-- The fixed `fields_order` of `YachtPartsParser.__init__`. -/
def fields_order : List String :=
  ["article", "name", "brand", "options", "price", "category",
   "preview_description", "main_description", "image_links", "product_link"]

/-- A durable append performed by the orchestrator. -/
inductive Ev where
  | csv (rows : List Row)
  | ledP (rel : String)
  | ledPage (catL : String) (n : Nat)
  | ledCat (catL : String)
deriving DecidableEq

/-- The line the event writes to the ledger file (`none` for CSV writes). -/
def evLine : Ev → Option String
  | Ev.csv _ => none
  | Ev.ledP rel => some rel
  | Ev.ledPage catL n => some (get_pagination_page_link catL n)
  | Ev.ledCat catL => some catL

/-- The outcome of `get_product_links` on one listing page. -/
inductive PageFetch where
  | missing
  | ok (links : List String) (isLast : Bool)
deriving DecidableEq

/-- The website, as seen through the collaborator boundary. -/
structure Site where
  categories : List (String × String)
  pages : String → List PageFetch
  productData : String → List PDict

/-- The orchestrator's mutable state plus the ghost trace. -/
structure St where
  collected : List String
  csvFile : Option (List Row)
  trace : List Ev
deriving DecidableEq

/-- `ProductLinksNotFound`, carrying the page link, as raised by
`get_product_links` and left uncaught by `get_all_data`. -/
inductive CrawlErr where
  | productLinksNotFound (link : String)
deriving DecidableEq

/-- The rows physically written by one CSV append: the header if and only
if the file did not exist before (data_retrieving.py:683-694), then one
data row per dictionary. -/
def csvRowsWritten (file : Option (List Row)) (ds : List PDict) : List Row :=
  (if file.isSome then [] else [Row.header fields_order]) ++ ds.map Row.data

/-- The CSV append block of the product loop: compute existence, open in
append mode (creating the file if needed), write header if the file was
absent, write the rows, close. -/
def csv_write (st : St) (ds : List PDict) : St :=
  { st with
    csvFile := some (st.csvFile.getD [] ++ csvRowsWritten st.csvFile ds),
    trace := st.trace ++ [Ev.csv (csvRowsWritten st.csvFile ds)] }

/-- `add_collected_link` (data_retrieving.py:612-622): append one line to
the ledger file and add it to the in-memory set.  The event `e` is the
ghost record of which call site performed the append; the written line is
`evLine e`. -/
def add_collected_link (st : St) (e : Ev) (line : String) : St :=
  { st with trace := st.trace ++ [e], collected := line :: st.collected }

/-- `all(not data_dict for data_dict in page_data)`. -/
def allEmptyB (pd : List PDict) : Bool := pd.all (fun d => d.isEmpty)

/-- The body of the product loop (data_retrieving.py:663-696): skip if the
(relative) link was already collected; fetch the page data; if every
dictionary is empty, log and skip; otherwise set the category on each
dictionary, append the rows to the CSV file, and record the *relative*
product link in the ledger. -/
def runProduct (site : Site) (catName : String) (st : St) (rel : String) : St :=
  if st.collected.contains rel then st
  else
    let pd := site.productData (get_absolute_link rel)
    if allEmptyB pd then st
    else
      let pd := pd.map (fun d => dictInsert d "category" (some catName))
      let st := csv_write st pd
      add_collected_link st (Ev.ledP rel) rel

/-- The page loop of one category (data_retrieving.py:652-701): for each
page number starting at 1, skip if the page link is collected; otherwise a
missing listing container raises `ProductLinksNotFound` (aborting the
whole run), and a found one processes every product, records the page
link, and stops after the last page. -/
def runPages (site : Site) (catName : String) (catL : String) :
    List PageFetch → Nat → St → St × Option CrawlErr
  | [], _, st => (st, none)
  | pf :: rest, n, st =>
    let pageL := get_pagination_page_link catL n
    if st.collected.contains pageL then runPages site catName catL rest (n + 1) st
    else
      match pf with
      | PageFetch.missing => (st, some (CrawlErr.productLinksNotFound pageL))
      | PageFetch.ok links isLast =>
        let st1 := links.foldl (runProduct site catName) st
        let st2 := add_collected_link st1 (Ev.ledPage catL n) pageL
        if isLast then (st2, none)
        else runPages site catName catL rest (n + 1) st2

/-- One iteration of the category loop (data_retrieving.py:646-703): skip
if the absolute category link is collected; otherwise walk the pages and,
on success, record the category link. -/
def runCategory (site : Site) (st : St) (c : String × String) : St × Option CrawlErr :=
  let catL := get_absolute_link c.2
  if st.collected.contains catL then (st, none)
  else
    match runPages site c.1 catL (site.pages catL) 1 st with
    | (st', some e) => (st', some e)
    | (st', none) => (add_collected_link st' (Ev.ledCat catL) catL, none)

/-- The category loop; an uncaught error ends the whole run. -/
def runCats (site : Site) : List (String × String) → St → St × Option CrawlErr
  | [], st => (st, none)
  | c :: rest, st =>
    match runCategory site st c with
    | (st', some e) => (st', some e)
    | (st', none) => runCats site rest st'

/-- `get_all_data`: `L0` is the set of lines read from
`collected_links.txt` at startup, `C0` the CSV file's current content
(`none` when it does not exist yet). -/
def get_all_data (site : Site) (L0 : List String) (C0 : Option (List Row)) :
    St × Option CrawlErr :=
  runCats site site.categories { collected := L0, csvFile := C0, trace := [] }

/-- The ledger file produced by a state: one line per ledger append, in
order. -/
def ledgerLines (st : St) : List String := st.trace.filterMap evLine

/-! ### Trace invariants -/

/-- The data rows produced for product `rel` under category `catName`:
the extracted dictionaries with the category name set. -/
def dataRowsFor (site : Site) (catName rel : String) : List Row :=
  (site.productData (get_absolute_link rel)).map
    (fun d => Row.data (dictInsert d "category" (some catName)))

/-- `w` is a CSV write block belonging to product `rel`: an optional
header followed by exactly that product's data rows. -/
def WriteFor (site : Site) (rel : String) (w : List Row) : Prop :=
  ∃ catName hdr, (hdr = [] ∨ hdr = [Row.header fields_order]) ∧
    w = hdr ++ dataRowsFor site catName rel

/-- The grammar of well-ordered traces: a product is recorded immediately
after its own CSV block; a page is recorded only when each of its products
was already collected (previously or in the trace) or produced no data,
and never after its category was recorded; categories may be recorded
freely (the crawl appends them last). -/
inductive OkTrace (site : Site) (L0 : List String) : List Ev → Prop where
  | nil : OkTrace site L0 []
  | prod {tr : List Ev} {rel : String} {w : List Row}
      (hw : WriteFor site rel w) (h : OkTrace site L0 tr) :
      OkTrace site L0 (tr ++ [Ev.csv w, Ev.ledP rel])
  | page {tr : List Ev} {catL : String} {n : Nat} {links : List String}
      {b : Bool} {rest : List PageFetch}
      (hpf : (site.pages catL).drop (n - 1) = PageFetch.ok links b :: rest)
      (hnc : Ev.ledCat catL ∉ tr)
      (hrels : ∀ rel ∈ links, rel ∈ L0 ∨ Ev.ledP rel ∈ tr ∨
        allEmptyB (site.productData (get_absolute_link rel)) = true)
      (h : OkTrace site L0 tr) :
      OkTrace site L0 (tr ++ [Ev.ledPage catL n])
  | cat {tr : List Ev} {catL : String} (h : OkTrace site L0 tr) :
      OkTrace site L0 (tr ++ [Ev.ledCat catL])

/-- The in-memory set and the trace agree: every written line is in the
set, and every set member is an initial line or was written. -/
def StInv (L0 : List String) (st : St) : Prop :=
  (∀ e ∈ st.trace, ∀ l, evLine e = some l → l ∈ st.collected) ∧
  (∀ l ∈ st.collected, l ∈ L0 ∨ ∃ e ∈ st.trace, evLine e = some l)

/-- Page and category ledger events always carry an absolute category
link. -/
def AbsEv : Ev → Prop
  | Ev.ledPage catL _ => isAbs catL = true
  | Ev.ledCat catL => isAbs catL = true
  | _ => True

/-- All events of the trace satisfy `AbsEv`. -/
def TraceAbs (st : St) : Prop := ∀ e ∈ st.trace, AbsEv e

/-- The combined invariant carried through the crawl. -/
def Good (site : Site) (L0 : List String) (st : St) : Prop :=
  StInv L0 st ∧ TraceAbs st ∧ OkTrace site L0 st.trace

/-- `rel` is a product href of some listing page of the category at
absolute link `catL`. -/
def catRel (site : Site) (catL rel : String) : Prop :=
  ∃ pf ∈ site.pages catL, ∃ links b, pf = PageFetch.ok links b ∧ rel ∈ links

/-- Events a single category's page loop may append. -/
def PageEv (site : Site) (catL : String) (e : Ev) : Prop :=
  (∃ w, e = Ev.csv w) ∨ (∃ rel, e = Ev.ledP rel ∧ catRel site catL rel) ∨
  (∃ m, e = Ev.ledPage catL m)

/-- Events the whole run may append. -/
def CatEv (site : Site) (e : Ev) : Prop :=
  ∃ c ∈ site.categories,
    PageEv site (get_absolute_link c.2) e ∨ e = Ev.ledCat (get_absolute_link c.2)

/-- All product hrefs of one fetched page are relative (not absolute). -/
def relOnlyB : PageFetch → Bool
  | PageFetch.missing => true
  | PageFetch.ok links _ => links.all (fun r => !(isAbs r))

/-- All product hrefs of all pages the crawl can reach are relative, as
they are on the modelled site (the source itself absolutizes them before
navigation). -/
def siteRelOnly (site : Site) : Bool :=
  site.categories.all (fun c => (site.pages (get_absolute_link c.2)).all relOnlyB)

/-- One CSV append: the new content is the old content (empty if the file
did not exist) plus the physically written rows. -/
def csvStep (c c' : Option (List Row)) : Prop :=
  ∃ ds, c' = some (c.getD [] ++ csvRowsWritten c ds)

theorem split_append_cons {α : Type} (tr block t1 t2 : List α) (e : α)
    (h : tr ++ block = t1 ++ e :: t2) :
    (∃ t2', tr = t1 ++ e :: t2' ∧ t2 = t2' ++ block) ∨
    (∃ t1', t1 = tr ++ t1' ∧ block = t1' ++ e :: t2) := by
  have h' : t1 ++ (e :: t2) = tr ++ block := h.symm
  rw [List.append_eq_append_iff] at h'
  rcases h' with ⟨x, hx1, hx2⟩ | ⟨y, hy1, hy2⟩
  · cases x with
    | nil =>
      right
      refine ⟨[], ?_, ?_⟩
      · rw [hx1]; simp
      · simpa using hx2.symm
    | cons e' x' =>
      injection hx2 with he hx2'
      subst he
      left
      exact ⟨x', hx1, hx2'⟩
  · right
    exact ⟨y, hy1, hy2⟩

theorem csv_write_trace (st : St) (ds : List PDict) :
    (csv_write st ds).trace = st.trace ++ [Ev.csv (csvRowsWritten st.csvFile ds)] := rfl

theorem runProduct_spec (site : Site) (catName : String) (st : St) (rel : String) :
    (∃ ext, (runProduct site catName st rel).trace = st.trace ++ ext ∧
      (ext = [] ∨ ∃ w, WriteFor site rel w ∧ ext = [Ev.csv w, Ev.ledP rel])) ∧
    (∀ x ∈ st.collected, x ∈ (runProduct site catName st rel).collected) ∧
    (rel ∈ (runProduct site catName st rel).collected ∨
      allEmptyB (site.productData (get_absolute_link rel)) = true) ∧
    Relation.ReflTransGen csvStep st.csvFile (runProduct site catName st rel).csvFile := by
  unfold runProduct
  split
  case isTrue hc =>
    exact ⟨⟨[], by simp, Or.inl rfl⟩, fun x hx => hx,
      Or.inl (by simpa using hc), Relation.ReflTransGen.refl⟩
  case isFalse hc =>
    dsimp only
    split
    case isTrue he =>
      exact ⟨⟨[], by simp, Or.inl rfl⟩, fun x hx => hx, Or.inr he,
        Relation.ReflTransGen.refl⟩
    case isFalse he =>
      refine ⟨⟨[Ev.csv (csvRowsWritten st.csvFile
          ((site.productData (get_absolute_link rel)).map
            (fun d => dictInsert d "category" (some catName)))), Ev.ledP rel],
          ?_, Or.inr ⟨_, ?_, rfl⟩⟩, ?_, ?_, ?_⟩
      · simp [add_collected_link, csv_write]
      · refine ⟨catName, if st.csvFile.isSome then [] else [Row.header fields_order],
          ?_, ?_⟩
        · split
          · exact Or.inl rfl
          · exact Or.inr rfl
        · unfold csvRowsWritten dataRowsFor
          rw [List.map_map]
          rfl
      · intro x hx
        simp [add_collected_link, csv_write, hx]
      · left
        simp [add_collected_link, csv_write]
      · exact Relation.ReflTransGen.single ⟨_, rfl⟩

theorem runProduct_good (site : Site) (L0 : List String) (catName : String)
    (st : St) (rel : String) (hg : Good site L0 st) :
    Good site L0 (runProduct site catName st rel) := by
  unfold runProduct
  split
  case isTrue hc => exact hg
  case isFalse hc =>
    dsimp only
    split
    case isTrue he => exact hg
    case isFalse he =>
      obtain ⟨⟨hinv1, hinv2⟩, habs, hok⟩ := hg
      refine ⟨⟨?_, ?_⟩, ?_, ?_⟩
      · intro e hee l hl
        simp only [add_collected_link, csv_write, List.append_assoc] at hee ⊢
        rcases List.mem_append.mp hee with hee | hee
        · exact List.mem_cons_of_mem _ (hinv1 e hee l hl)
        · simp only [List.cons_append, List.nil_append, List.mem_cons,
            List.not_mem_nil, or_false] at hee
          rcases hee with hee | hee
          · subst hee; cases hl
          · subst hee
            simp only [evLine, Option.some.injEq] at hl
            subst hl
            exact List.mem_cons_self _ _
      · intro l hl
        simp only [add_collected_link, csv_write] at hl
        rcases List.mem_cons.mp hl with hl | hl
        · subst hl
          refine Or.inr ⟨Ev.ledP l, ?_, rfl⟩
          simp [add_collected_link, csv_write]
        · rcases hinv2 l hl with h0 | ⟨e, he1, he2⟩
          · exact Or.inl h0
          · refine Or.inr ⟨e, ?_, he2⟩
            simp only [add_collected_link, csv_write, List.append_assoc]
            exact List.mem_append.mpr (Or.inl he1)
      · intro e hee
        simp only [add_collected_link, csv_write, List.append_assoc] at hee
        rcases List.mem_append.mp hee with hee | hee
        · exact habs e hee
        · simp only [List.cons_append, List.nil_append, List.mem_cons,
            List.not_mem_nil, or_false] at hee
          rcases hee with hee | hee
          · subst hee; trivial
          · subst hee; trivial
      · have htr : (add_collected_link (csv_write st
            ((site.productData (get_absolute_link rel)).map
              (fun d => dictInsert d "category" (some catName))))
            (Ev.ledP rel) rel).trace
            = st.trace ++ [Ev.csv (csvRowsWritten st.csvFile
                ((site.productData (get_absolute_link rel)).map
                  (fun d => dictInsert d "category" (some catName)))),
              Ev.ledP rel] := by
          simp [add_collected_link, csv_write]
        show OkTrace site L0 (add_collected_link (csv_write st
            ((site.productData (get_absolute_link rel)).map
              (fun d => dictInsert d "category" (some catName))))
            (Ev.ledP rel) rel).trace
        rw [htr]
        refine OkTrace.prod ?_ hok
        refine ⟨catName, if st.csvFile.isSome then [] else [Row.header fields_order],
          ?_, ?_⟩
        · split
          · exact Or.inl rfl
          · exact Or.inr rfl
        · unfold csvRowsWritten dataRowsFor
          rw [List.map_map]
          rfl

theorem foldProducts_spec (site : Site) (catName : String) (links : List String) :
    ∀ st : St,
    (∃ ext, (links.foldl (runProduct site catName) st).trace = st.trace ++ ext ∧
      ∀ e ∈ ext, (∃ w, e = Ev.csv w) ∨ ∃ r ∈ links, e = Ev.ledP r) ∧
    (∀ x ∈ st.collected, x ∈ (links.foldl (runProduct site catName) st).collected) ∧
    (∀ r ∈ links, r ∈ (links.foldl (runProduct site catName) st).collected ∨
      allEmptyB (site.productData (get_absolute_link r)) = true) ∧
    Relation.ReflTransGen csvStep st.csvFile
      (links.foldl (runProduct site catName) st).csvFile := by
  induction links with
  | nil =>
    intro st
    exact ⟨⟨[], by simp, by simp⟩, fun x hx => hx, by simp,
      Relation.ReflTransGen.refl⟩
  | cons r rest ih =>
    intro st
    obtain ⟨⟨ext1, htr1, hsh1⟩, hmono1, hcol1, hcsv1⟩ :=
      runProduct_spec site catName st r
    obtain ⟨⟨ext2, htr2, hsh2⟩, hmono2, hcol2, hcsv2⟩ :=
      ih (runProduct site catName st r)
    simp only [List.foldl_cons]
    refine ⟨⟨ext1 ++ ext2, ?_, ?_⟩, ?_, ?_, ?_⟩
    · rw [htr2, htr1, List.append_assoc]
    · intro e he
      rcases List.mem_append.mp he with he | he
      · rcases hsh1 with hsh1 | ⟨w, hw, hsh1⟩
        · subst hsh1; cases he
        · subst hsh1
          rcases List.mem_cons.mp he with he | he
          · exact Or.inl ⟨w, he⟩
          · simp only [List.mem_singleton] at he
            exact Or.inr ⟨r, by simp, he⟩
      · rcases hsh2 e he with h | ⟨r', hr', he'⟩
        · exact Or.inl h
        · exact Or.inr ⟨r', by simp [hr'], he'⟩
    · exact fun x hx => hmono2 x (hmono1 x hx)
    · intro r' hr'
      rcases List.mem_cons.mp hr' with hr' | hr'
      · subst hr'
        rcases hcol1 with h | h
        · exact Or.inl (hmono2 _ h)
        · exact Or.inr h
      · exact hcol2 r' hr'
    · exact Relation.ReflTransGen.trans hcsv1 hcsv2

theorem foldProducts_good (site : Site) (L0 : List String) (catName : String)
    (links : List String) :
    ∀ st : St, Good site L0 st →
    Good site L0 (links.foldl (runProduct site catName) st) := by
  induction links with
  | nil => intro st hg; exact hg
  | cons r rest ih =>
    intro st hg
    exact ih _ (runProduct_good site L0 catName st r hg)

theorem StInv_add (L0 : List String) (st : St) (e : Ev) (line : String)
    (hline : evLine e = some line) (h : StInv L0 st) :
    StInv L0 (add_collected_link st e line) := by
  obtain ⟨h1, h2⟩ := h
  constructor
  · intro e' he' l hl
    simp only [add_collected_link] at he' ⊢
    rcases List.mem_append.mp he' with he' | he'
    · exact List.mem_cons_of_mem _ (h1 e' he' l hl)
    · simp only [List.mem_singleton] at he'
      subst he'
      rw [hline] at hl
      injection hl with hl
      subst hl
      exact List.mem_cons_self _ _
  · intro l hl
    simp only [add_collected_link] at hl ⊢
    rcases List.mem_cons.mp hl with hl | hl
    · subst hl
      exact Or.inr ⟨e, by simp, hline⟩
    · rcases h2 l hl with h0 | ⟨e', he1, he2⟩
      · exact Or.inl h0
      · exact Or.inr ⟨e', List.mem_append.mpr (Or.inl he1), he2⟩

theorem TraceAbs_add (st : St) (e : Ev) (line : String) (he : AbsEv e)
    (h : TraceAbs st) : TraceAbs (add_collected_link st e line) := by
  intro e' he'
  simp only [add_collected_link] at he'
  rcases List.mem_append.mp he' with he' | he'
  · exact h e' he'
  · simp only [List.mem_singleton] at he'
    subst he'
    exact he

theorem add_collected_link_csv (st : St) (e : Ev) (line : String) :
    (add_collected_link st e line).csvFile = st.csvFile := rfl

theorem drop_cons_succ {α : Type} (l r : List α) (x : α) (n : Nat) (hn : 1 ≤ n)
    (h : l.drop (n - 1) = x :: r) : l.drop n = r := by
  have h1 : l.drop n = (l.drop (n - 1)).drop 1 := by
    rw [List.drop_drop]
    congr 1
    omega
  rw [h1, h]
  rfl

theorem runPages_spec (site : Site) (catName catL : String) (pfs : List PageFetch) :
    ∀ (n : Nat) (st : St), 1 ≤ n → pfs = (site.pages catL).drop (n - 1) →
    (∃ ext, (runPages site catName catL pfs n st).1.trace = st.trace ++ ext ∧
      ∀ e ∈ ext, PageEv site catL e) ∧
    (∀ x ∈ st.collected, x ∈ (runPages site catName catL pfs n st).1.collected) ∧
    Relation.ReflTransGen csvStep st.csvFile
      (runPages site catName catL pfs n st).1.csvFile := by
  induction pfs with
  | nil =>
    intro n st _ _
    exact ⟨⟨[], by simp [runPages], by simp⟩, fun x hx => hx,
      Relation.ReflTransGen.refl⟩
  | cons pf rest ih =>
    intro n st hn hdrop
    have hdrop' : rest = (site.pages catL).drop ((n + 1) - 1) := by
      have := drop_cons_succ (site.pages catL) rest pf n hn hdrop.symm
      simpa using this.symm
    have hpfmem : pf ∈ site.pages catL := by
      have h1 : pf ∈ (site.pages catL).drop (n - 1) := by
        rw [← hdrop]; exact List.mem_cons_self _ _
      exact List.drop_subset _ _ h1
    simp only [runPages]
    split
    case isTrue hc =>
      exact ih (n + 1) st (by omega) hdrop'
    case isFalse hc =>
      cases pf with
      | missing =>
        exact ⟨⟨[], by simp, by simp⟩, fun x hx => hx, Relation.ReflTransGen.refl⟩
      | ok links isLast =>
        obtain ⟨⟨ext1, htr1, hsh1⟩, hmono1, hcol1, hcsv1⟩ :=
          foldProducts_spec site catName links st
        cases isLast with
        | true =>
          dsimp only
          refine ⟨⟨ext1 ++ [Ev.ledPage catL n], ?_, ?_⟩, ?_, ?_⟩
          · show (add_collected_link _ _ _).trace = _
            simp only [add_collected_link, htr1, List.append_assoc]
          · intro e he
            rcases List.mem_append.mp he with he | he
            · rcases hsh1 e he with ⟨w, hw⟩ | ⟨r, hr, he'⟩
              · exact Or.inl ⟨w, hw⟩
              · exact Or.inr (Or.inl ⟨r, he', ⟨_, hpfmem, links, true, rfl, hr⟩⟩)
            · simp only [List.mem_singleton] at he
              exact Or.inr (Or.inr ⟨n, he⟩)
          · intro x hx
            exact List.mem_cons_of_mem _ (hmono1 x hx)
          · exact hcsv1
        | false =>
          obtain ⟨⟨ext3, htr3, hsh3⟩, hmono3, hcsv3⟩ :=
            ih (n + 1)
              (add_collected_link (links.foldl (runProduct site catName) st)
                (Ev.ledPage catL n) (get_pagination_page_link catL n))
              (by omega) hdrop'
          dsimp only
          rw [if_neg Bool.false_ne_true]
          refine ⟨⟨ext1 ++ [Ev.ledPage catL n] ++ ext3, ?_, ?_⟩, ?_, ?_⟩
          · rw [htr3]
            show (add_collected_link _ _ _).trace ++ ext3 = _
            simp only [add_collected_link, htr1, List.append_assoc]
          · intro e he
            rcases List.mem_append.mp he with he | he
            · rcases List.mem_append.mp he with he | he
              · rcases hsh1 e he with ⟨w, hw⟩ | ⟨r, hr, he'⟩
                · exact Or.inl ⟨w, hw⟩
                · exact Or.inr (Or.inl ⟨r, he', ⟨_, hpfmem, links, false, rfl, hr⟩⟩)
              · simp only [List.mem_singleton] at he
                exact Or.inr (Or.inr ⟨n, he⟩)
            · exact hsh3 e he
          · intro x hx
            exact hmono3 x (List.mem_cons_of_mem _ (hmono1 x hx))
          · exact Relation.ReflTransGen.trans hcsv1 hcsv3

theorem runPages_good (site : Site) (L0 : List String) (catName catL : String)
    (habs : isAbs catL = true)
    (hrelp : ∀ pf ∈ site.pages catL, relOnlyB pf = true)
    (pfs : List PageFetch) :
    ∀ (n : Nat) (st : St), 1 ≤ n → pfs = (site.pages catL).drop (n - 1) →
    Ev.ledCat catL ∉ st.trace → Good site L0 st →
    Good site L0 (runPages site catName catL pfs n st).1 := by
  induction pfs with
  | nil => intro n st _ _ _ hg; exact hg
  | cons pf rest ih =>
    intro n st hn hdrop hnc hg
    have hdrop' : rest = (site.pages catL).drop ((n + 1) - 1) := by
      have := drop_cons_succ (site.pages catL) rest pf n hn hdrop.symm
      simpa using this.symm
    have hpfmem : pf ∈ site.pages catL := by
      have h1 : pf ∈ (site.pages catL).drop (n - 1) := by
        rw [← hdrop]; exact List.mem_cons_self _ _
      exact List.drop_subset _ _ h1
    simp only [runPages]
    split
    case isTrue hc =>
      exact ih (n + 1) st (by omega) hdrop' hnc hg
    case isFalse hc =>
      cases pf with
      | missing => exact hg
      | ok links isLast =>
        have hg1 : Good site L0 (links.foldl (runProduct site catName) st) :=
          foldProducts_good site L0 catName links st hg
        obtain ⟨⟨ext1, htr1, hsh1⟩, hmono1, hcol1, _⟩ :=
          foldProducts_spec site catName links st
        have hnc1 : Ev.ledCat catL ∉ (links.foldl (runProduct site catName) st).trace := by
          rw [htr1]
          intro hmem
          rcases List.mem_append.mp hmem with hmem | hmem
          · exact hnc hmem
          · rcases hsh1 _ hmem with ⟨w, hw⟩ | ⟨r, _, hw⟩ <;> cases hw
        have hrelE : ∀ rel ∈ links, isAbs rel = false := by
          have h := hrelp _ hpfmem
          simp only [relOnlyB, List.all_eq_true] at h
          intro rel hr
          have := h rel hr
          simpa using this
        have hrels : ∀ rel ∈ links, rel ∈ L0 ∨
            Ev.ledP rel ∈ (links.foldl (runProduct site catName) st).trace ∨
            allEmptyB (site.productData (get_absolute_link rel)) = true := by
          intro rel hr
          rcases hcol1 rel hr with hcoll | hempty
          · obtain ⟨⟨hi1, hi2⟩, habs1, hok1⟩ := hg1
            rcases hi2 rel hcoll with h0 | ⟨e, he1, he2⟩
            · exact Or.inl h0
            · cases e with
              | csv w => simp [evLine] at he2
              | ledP r =>
                simp only [evLine, Option.some.injEq] at he2
                subst he2
                exact Or.inr (Or.inl he1)
              | ledPage cl m =>
                exfalso
                simp only [evLine, Option.some.injEq] at he2
                have ha1 : isAbs cl = true := habs1 _ he1
                have ha2 : isAbs (get_pagination_page_link cl m) = true :=
                  isAbs_pagination cl m ha1
                rw [he2] at ha2
                rw [hrelE rel hr] at ha2
                cases ha2
              | ledCat cl =>
                exfalso
                simp only [evLine, Option.some.injEq] at he2
                have ha1 : isAbs cl = true := habs1 _ he1
                rw [he2] at ha1
                rw [hrelE rel hr] at ha1
                cases ha1
          · exact Or.inr (Or.inr hempty)
        have hg2 : Good site L0 (add_collected_link
            (links.foldl (runProduct site catName) st)
            (Ev.ledPage catL n) (get_pagination_page_link catL n)) := by
          obtain ⟨hi, ha, ho⟩ := hg1
          refine ⟨StInv_add _ _ _ _ rfl hi, TraceAbs_add _ _ _ habs ha, ?_⟩
          show OkTrace site L0
            ((links.foldl (runProduct site catName) st).trace ++ [Ev.ledPage catL n])
          exact OkTrace.page hdrop.symm hnc1 hrels ho
        have hnc2 : Ev.ledCat catL ∉ (add_collected_link
            (links.foldl (runProduct site catName) st)
            (Ev.ledPage catL n) (get_pagination_page_link catL n)).trace := by
          intro hmem
          simp only [add_collected_link] at hmem
          rcases List.mem_append.mp hmem with hmem | hmem
          · exact hnc1 hmem
          · simp at hmem
        cases isLast with
        | true =>
          dsimp only
          exact hg2
        | false =>
          dsimp only
          rw [if_neg Bool.false_ne_true]
          exact ih (n + 1) _ (by omega) hdrop' hnc2 hg2

theorem runCategory_spec (site : Site) (st : St) (c : String × String) :
    (∃ ext, (runCategory site st c).1.trace = st.trace ++ ext ∧
      ∀ e ∈ ext, PageEv site (get_absolute_link c.2) e ∨
        e = Ev.ledCat (get_absolute_link c.2)) ∧
    (∀ x ∈ st.collected, x ∈ (runCategory site st c).1.collected) ∧
    Relation.ReflTransGen csvStep st.csvFile (runCategory site st c).1.csvFile := by
  obtain ⟨⟨ext, htr, hsh⟩, hmono, hcsv⟩ :=
    runPages_spec site c.1 (get_absolute_link c.2)
      (site.pages (get_absolute_link c.2)) 1 st (by omega) (by simp)
  unfold runCategory
  dsimp only
  split
  case isTrue hc =>
    exact ⟨⟨[], by simp, by simp⟩, fun x hx => hx, Relation.ReflTransGen.refl⟩
  case isFalse hc =>
    rcases hres : runPages site c.1 (get_absolute_link c.2)
        (site.pages (get_absolute_link c.2)) 1 st with ⟨st', err⟩
    rw [hres] at htr hmono hcsv
    simp only at htr hmono hcsv
    cases err with
    | some e =>
      exact ⟨⟨ext, htr, fun e' he' => Or.inl (hsh e' he')⟩, hmono, hcsv⟩
    | none =>
      refine ⟨⟨ext ++ [Ev.ledCat (get_absolute_link c.2)], ?_, ?_⟩, ?_, ?_⟩
      · show (add_collected_link st' _ _).trace = _
        simp only [add_collected_link, htr, List.append_assoc]
      · intro e' he'
        rcases List.mem_append.mp he' with he' | he'
        · exact Or.inl (hsh e' he')
        · simp only [List.mem_singleton] at he'
          exact Or.inr he'
      · intro x hx
        exact List.mem_cons_of_mem _ (hmono x hx)
      · exact hcsv

theorem runCategory_good (site : Site) (L0 : List String) (st : St)
    (c : String × String)
    (hrelp : ∀ pf ∈ site.pages (get_absolute_link c.2), relOnlyB pf = true)
    (hg : Good site L0 st) : Good site L0 (runCategory site st c).1 := by
  have hgp := runPages_good site L0 c.1 (get_absolute_link c.2)
    (isAbs_get_absolute_link c.2) hrelp (site.pages (get_absolute_link c.2))
  unfold runCategory
  dsimp only
  split
  case isTrue hc => exact hg
  case isFalse hc =>
    have hnc : Ev.ledCat (get_absolute_link c.2) ∉ st.trace := by
      intro hmem
      have h1 : get_absolute_link c.2 ∈ st.collected :=
        hg.1.1 _ hmem _ rfl
      exact hc (by simpa using h1)
    have hg' := hgp 1 st (by omega) (by simp) hnc hg
    rcases hres : runPages site c.1 (get_absolute_link c.2)
        (site.pages (get_absolute_link c.2)) 1 st with ⟨st', err⟩
    rw [hres] at hg'
    simp only at hg'
    cases err with
    | some e => exact hg'
    | none =>
      obtain ⟨hi, ha, ho⟩ := hg'
      refine ⟨StInv_add _ _ _ _ rfl hi,
        TraceAbs_add _ _ _ (isAbs_get_absolute_link c.2) ha, ?_⟩
      show OkTrace site L0 (st'.trace ++ [Ev.ledCat (get_absolute_link c.2)])
      exact OkTrace.cat ho

theorem runCats_spec (site : Site) (cs : List (String × String)) :
    ∀ st : St, (∀ c ∈ cs, c ∈ site.categories) →
    (∃ ext, (runCats site cs st).1.trace = st.trace ++ ext ∧
      ∀ e ∈ ext, CatEv site e) ∧
    (∀ x ∈ st.collected, x ∈ (runCats site cs st).1.collected) ∧
    Relation.ReflTransGen csvStep st.csvFile (runCats site cs st).1.csvFile := by
  induction cs with
  | nil =>
    intro st _
    exact ⟨⟨[], by simp [runCats], by simp⟩, fun x hx => hx,
      Relation.ReflTransGen.refl⟩
  | cons c rest ih =>
    intro st hsub
    obtain ⟨⟨ext1, htr1, hsh1⟩, hmono1, hcsv1⟩ := runCategory_spec site st c
    simp only [runCats]
    rcases hres : runCategory site st c with ⟨st', err⟩
    rw [hres] at htr1 hmono1 hcsv1
    simp only at htr1 hmono1 hcsv1
    cases err with
    | some e =>
      exact ⟨⟨ext1, htr1, fun e' he' =>
        ⟨c, hsub c (by simp), hsh1 e' he'⟩⟩, hmono1, hcsv1⟩
    | none =>
      obtain ⟨⟨ext2, htr2, hsh2⟩, hmono2, hcsv2⟩ :=
        ih st' (fun x hx => hsub x (by simp [hx]))
      refine ⟨⟨ext1 ++ ext2, ?_, ?_⟩, ?_, ?_⟩
      · rw [htr2, htr1, List.append_assoc]
      · intro e' he'
        rcases List.mem_append.mp he' with he' | he'
        · exact ⟨c, hsub c (by simp), hsh1 e' he'⟩
        · exact hsh2 e' he'
      · exact fun x hx => hmono2 x (hmono1 x hx)
      · exact Relation.ReflTransGen.trans hcsv1 hcsv2

theorem runCats_good (site : Site) (L0 : List String) (cs : List (String × String)) :
    ∀ st : St, (∀ c ∈ cs, c ∈ site.categories) → siteRelOnly site = true →
    Good site L0 st → Good site L0 (runCats site cs st).1 := by
  induction cs with
  | nil => intro st _ _ hg; exact hg
  | cons c rest ih =>
    intro st hsub hrel hg
    have hrelp : ∀ pf ∈ site.pages (get_absolute_link c.2), relOnlyB pf = true := by
      have h1 : (site.pages (get_absolute_link c.2)).all relOnlyB = true := by
        unfold siteRelOnly at hrel
        rw [List.all_eq_true] at hrel
        exact hrel c (hsub c (by simp))
      rw [List.all_eq_true] at h1
      exact h1
    have hg1 := runCategory_good site L0 st c hrelp hg
    simp only [runCats]
    rcases hres : runCategory site st c with ⟨st', err⟩
    rw [hres] at hg1
    simp only at hg1
    cases err with
    | some e => exact hg1
    | none => exact ih st' (fun x hx => hsub x (by simp [hx])) hrel hg1

theorem rtg_csv_from_some (l : List Row) (c : Option (List Row))
    (h : Relation.ReflTransGen csvStep (some l) c) :
    ∃ ds, (∀ r ∈ ds, ∃ d, r = Row.data d) ∧ c = some (l ++ ds) := by
  induction h with
  | refl => exact ⟨[], by simp, by simp⟩
  | tail hab hbc ih =>
    obtain ⟨ds, hds, hb⟩ := ih
    obtain ⟨ds2, hc⟩ := hbc
    subst hb
    refine ⟨ds ++ ds2.map Row.data, ?_, ?_⟩
    · intro r hr
      rcases List.mem_append.mp hr with hr | hr
      · exact hds r hr
      · obtain ⟨d, _, hd⟩ := List.mem_map.mp hr
        exact ⟨d, hd.symm⟩
    · rw [hc]
      simp [csvRowsWritten]

theorem rtg_csv_from_none (c : Option (List Row))
    (h : Relation.ReflTransGen csvStep none c) :
    c = none ∨ ∃ ds, (∀ r ∈ ds, ∃ d, r = Row.data d) ∧
      c = some (Row.header fields_order :: ds) := by
  induction h with
  | refl => exact Or.inl rfl
  | tail hab hbc ih =>
    obtain ⟨ds2, hc⟩ := hbc
    rcases ih with hb | ⟨ds, hds, hb⟩
    · subst hb
      right
      refine ⟨ds2.map Row.data, ?_, ?_⟩
      · intro r hr
        obtain ⟨d, _, hd⟩ := List.mem_map.mp hr
        exact ⟨d, hd.symm⟩
      · rw [hc]
        simp [csvRowsWritten]
    · subst hb
      right
      refine ⟨ds ++ ds2.map Row.data, ?_, ?_⟩
      · intro r hr
        rcases List.mem_append.mp hr with hr | hr
        · exact hds r hr
        · obtain ⟨d, _, hd⟩ := List.mem_map.mp hr
          exact ⟨d, hd.symm⟩
      · rw [hc]
        simp [csvRowsWritten]

theorem okTrace_ledP (site : Site) (L0 : List String) (tr : List Ev)
    (h : OkTrace site L0 tr) :
    ∀ t1 rel t2, tr = t1 ++ Ev.ledP rel :: t2 →
    ∃ t0 w, t1 = t0 ++ [Ev.csv w] ∧ WriteFor site rel w := by
  induction h with
  | nil =>
    intro t1 rel t2 heq
    exact absurd heq.symm (by simp)
  | @prod tr' rel' w' hw hok ih =>
    intro t1 rel t2 heq
    rcases split_append_cons tr' [Ev.csv w', Ev.ledP rel'] t1 t2 (Ev.ledP rel)
        heq with ⟨t2', h1, h2⟩ | ⟨t1', h1, h2⟩
    · exact ih t1 rel t2' h1
    · cases t1' with
      | nil =>
        injection h2 with hx h2'
        cases hx
      | cons x xs =>
        injection h2 with hx h2'
        subst hx
        cases xs with
        | nil =>
          injection h2' with hy h2''
          injection hy with hy
          subst hy
          exact ⟨tr', w', by rw [h1], hw⟩
        | cons y ys =>
          injection h2' with hy h2''
          exact absurd h2''.symm (by simp)
  | @page tr' catL n links b rest hpf hnc hrels hok ih =>
    intro t1 rel t2 heq
    rcases split_append_cons tr' [Ev.ledPage catL n] t1 t2 (Ev.ledP rel)
        heq with ⟨t2', h1, h2⟩ | ⟨t1', h1, h2⟩
    · exact ih t1 rel t2' h1
    · cases t1' with
      | nil =>
        injection h2 with hx h2'
        cases hx
      | cons x xs =>
        injection h2 with hx h2'
        exact absurd h2'.symm (by simp)
  | @cat tr' catL hok ih =>
    intro t1 rel t2 heq
    rcases split_append_cons tr' [Ev.ledCat catL] t1 t2 (Ev.ledP rel)
        heq with ⟨t2', h1, h2⟩ | ⟨t1', h1, h2⟩
    · exact ih t1 rel t2' h1
    · cases t1' with
      | nil =>
        injection h2 with hx h2'
        cases hx
      | cons x xs =>
        injection h2 with hx h2'
        exact absurd h2'.symm (by simp)

theorem okTrace_ledPage (site : Site) (L0 : List String) (tr : List Ev)
    (h : OkTrace site L0 tr) :
    ∀ t1 catL n t2 links b rest, tr = t1 ++ Ev.ledPage catL n :: t2 →
    (site.pages catL).drop (n - 1) = PageFetch.ok links b :: rest →
    ∀ rel ∈ links, rel ∈ L0 ∨ Ev.ledP rel ∈ t1 ∨
      allEmptyB (site.productData (get_absolute_link rel)) = true := by
  induction h with
  | nil =>
    intro t1 catL n t2 links b rest heq _
    exact absurd heq.symm (by simp)
  | @prod tr' rel' w' hw hok ih =>
    intro t1 catL n t2 links b rest heq hpf2
    rcases split_append_cons tr' [Ev.csv w', Ev.ledP rel'] t1 t2 (Ev.ledPage catL n)
        heq with ⟨t2', h1, h2⟩ | ⟨t1', h1, h2⟩
    · exact ih t1 catL n t2' links b rest h1 hpf2
    · cases t1' with
      | nil =>
        injection h2 with hx h2'
        cases hx
      | cons x xs =>
        injection h2 with hx h2'
        subst hx
        cases xs with
        | nil =>
          injection h2' with hy h2''
          cases hy
        | cons y ys =>
          injection h2' with hy h2''
          exact absurd h2''.symm (by simp)
  | @page tr' catL' n' links' b' rest' hpf hnc hrels hok ih =>
    intro t1 catL n t2 links b rest heq hpf2
    rcases split_append_cons tr' [Ev.ledPage catL' n'] t1 t2 (Ev.ledPage catL n)
        heq with ⟨t2', h1, h2⟩ | ⟨t1', h1, h2⟩
    · exact ih t1 catL n t2' links b rest h1 hpf2
    · cases t1' with
      | nil =>
        injection h2 with hx h2'
        injection hx with hx1 hx2
        subst hx1
        subst hx2
        have ht1 : t1 = tr' := by simpa using h1
        subst ht1
        rw [hpf] at hpf2
        injection hpf2 with hpf2 _
        injection hpf2 with hl _
        subst hl
        exact hrels
      | cons x xs =>
        injection h2 with hx h2'
        exact absurd h2'.symm (by simp)
  | @cat tr' catL' hok ih =>
    intro t1 catL n t2 links b rest heq hpf2
    rcases split_append_cons tr' [Ev.ledCat catL'] t1 t2 (Ev.ledPage catL n)
        heq with ⟨t2', h1, h2⟩ | ⟨t1', h1, h2⟩
    · exact ih t1 catL n t2' links b rest h1 hpf2
    · cases t1' with
      | nil =>
        injection h2 with hx h2'
        cases hx
      | cons x xs =>
        injection h2 with hx h2'
        exact absurd h2'.symm (by simp)

theorem okTrace_ledCat (site : Site) (L0 : List String) (tr : List Ev)
    (h : OkTrace site L0 tr) :
    ∀ t1 catL t2, tr = t1 ++ Ev.ledCat catL :: t2 →
    ∀ n, Ev.ledPage catL n ∉ t2 := by
  induction h with
  | nil =>
    intro t1 catL t2 heq
    exact absurd heq.symm (by simp)
  | @prod tr' rel' w' hw hok ih =>
    intro t1 catL t2 heq n hmem
    rcases split_append_cons tr' [Ev.csv w', Ev.ledP rel'] t1 t2 (Ev.ledCat catL)
        heq with ⟨t2', h1, h2⟩ | ⟨t1', h1, h2⟩
    · subst h2
      rcases List.mem_append.mp hmem with hmem | hmem
      · exact ih t1 catL t2' h1 n hmem
      · simp only [List.mem_cons, List.not_mem_nil, or_false, List.mem_singleton]
          at hmem
        rcases hmem with hmem | hmem <;> cases hmem
    · cases t1' with
      | nil =>
        injection h2 with hx h2'
        cases hx
      | cons x xs =>
        injection h2 with hx h2'
        subst hx
        cases xs with
        | nil =>
          injection h2' with hy h2''
          cases hy
        | cons y ys =>
          injection h2' with hy h2''
          exact absurd h2''.symm (by simp)
  | @page tr' catL' n' links' b' rest' hpf hnc hrels hok ih =>
    intro t1 catL t2 heq n hmem
    rcases split_append_cons tr' [Ev.ledPage catL' n'] t1 t2 (Ev.ledCat catL)
        heq with ⟨t2', h1, h2⟩ | ⟨t1', h1, h2⟩
    · subst h2
      rcases List.mem_append.mp hmem with hmem | hmem
      · exact ih t1 catL t2' h1 n hmem
      · simp only [List.mem_singleton] at hmem
        injection hmem with hcl hn2
        subst hcl
        rw [h1] at hnc
        exact hnc (List.mem_append.mpr (Or.inr (List.mem_cons_self _ _)))
    · cases t1' with
      | nil =>
        injection h2 with hx h2'
        cases hx
      | cons x xs =>
        injection h2 with hx h2'
        exact absurd h2'.symm (by simp)
  | @cat tr' catL' hok ih =>
    intro t1 catL t2 heq n hmem
    rcases split_append_cons tr' [Ev.ledCat catL'] t1 t2 (Ev.ledCat catL)
        heq with ⟨t2', h1, h2⟩ | ⟨t1', h1, h2⟩
    · subst h2
      rcases List.mem_append.mp hmem with hmem | hmem
      · exact ih t1 catL t2' h1 n hmem
      · simp only [List.mem_singleton] at hmem
        cases hmem
    · cases t1' with
      | nil =>
        injection h2 with hx h2'
        have ht2 : t2 = [] := by simpa using h2'.symm
        subst ht2
        cases hmem
      | cons x xs =>
        injection h2 with hx h2'
        exact absurd h2'.symm (by simp)

/-- C7: the result-sink header is written exactly once, on the first
append when the file does not yet exist, with the fixed `fields_order`
columns; appends to an existing file (including after a restart) add data
rows only, never truncate, and never write a second header.  Concretely:
starting from a nonexistent file, the final file is either still absent
(no write happened) or consists of the single `fields_order` header
followed by data rows only; starting from an existing file with content
`l`, the final file is `l` with data rows appended. -/
theorem csv_header_once (site : Site) (L0 : List String) (l : List Row) :
    ((get_all_data site L0 none).1.csvFile = none ∨
      ∃ ds, (∀ r ∈ ds, ∃ d, r = Row.data d) ∧
        (get_all_data site L0 none).1.csvFile
          = some (Row.header fields_order :: ds)) ∧
    (∃ ds, (∀ r ∈ ds, ∃ d, r = Row.data d) ∧
      (get_all_data site L0 (some l)).1.csvFile = some (l ++ ds)) := by
  constructor
  · have h := (runCats_spec site site.categories
      { collected := L0, csvFile := none, trace := [] } (fun c hc => hc)).2.2
    exact rtg_csv_from_none _ h
  · have h := (runCats_spec site site.categories
      { collected := L0, csvFile := some l, trace := [] } (fun c hc => hc)).2.2
    exact rtg_csv_from_some l _ h

/-- C3: ledger entries are appended only after the unit's output is
persisted.  In every run trace: (1) a product's ledger append is
immediately preceded by the CSV write block containing exactly that
product's rows (the `with` block that opened, wrote and closed the file);
(2) when a page's ledger entry is appended, every product href of that
page was already in the startup ledger, or its own ledger entry (hence,
by (1), its rows) already precedes, or the product produced no data;
(3) a category's ledger entry comes after every one of its page entries.
The hypothesis `hrel` states that product hrefs on the site are relative
links, as they are on the real site (the code itself absolutizes them
before navigating). -/
theorem ledger_after_persist (site : Site) (L0 : List String)
    (C0 : Option (List Row)) (hrel : siteRelOnly site = true) :
    (∀ t1 rel t2,
      (get_all_data site L0 C0).1.trace = t1 ++ Ev.ledP rel :: t2 →
      ∃ t0 w, t1 = t0 ++ [Ev.csv w] ∧ WriteFor site rel w) ∧
    (∀ t1 catL n t2 links b rest,
      (get_all_data site L0 C0).1.trace = t1 ++ Ev.ledPage catL n :: t2 →
      (site.pages catL).drop (n - 1) = PageFetch.ok links b :: rest →
      ∀ r ∈ links, r ∈ L0 ∨ Ev.ledP r ∈ t1 ∨
        allEmptyB (site.productData (get_absolute_link r)) = true) ∧
    (∀ t1 catL t2,
      (get_all_data site L0 C0).1.trace = t1 ++ Ev.ledCat catL :: t2 →
      ∀ n, Ev.ledPage catL n ∉ t2) := by
  have hg0 : Good site L0 { collected := L0, csvFile := C0, trace := [] } := by
    refine ⟨⟨?_, ?_⟩, ?_, OkTrace.nil⟩
    · intro e he
      cases he
    · intro l hl
      exact Or.inl hl
    · intro e he
      cases he
  have hg := runCats_good site L0 site.categories
    { collected := L0, csvFile := C0, trace := [] } (fun c hc => hc) hrel hg0
  obtain ⟨_, _, hok⟩ := hg
  refine ⟨?_, ?_, ?_⟩
  · intro t1 rel t2 heq
    exact okTrace_ledP site L0 _ hok t1 rel t2 heq
  · intro t1 catL n t2 links b rest heq hpf
    exact okTrace_ledPage site L0 _ hok t1 catL n t2 links b rest heq hpf
  · intro t1 catL t2 heq
    exact okTrace_ledCat site L0 _ hok t1 catL t2 heq

/-- C4 (amended): every ledger line is either an absolute URL (all
category and listing-page entries are: they are built by prefixing the
base link) or the verbatim product href as found on the listing page —
which for products is the *relative* link, not an absolute URL. -/
theorem ledger_lines_shape (site : Site) (L0 : List String)
    (C0 : Option (List Row)) :
    ∀ l ∈ ledgerLines (get_all_data site L0 C0).1,
      isAbs l = true ∨
      ∃ c ∈ site.categories, catRel site (get_absolute_link c.2) l := by
  obtain ⟨⟨ext, htr, hsh⟩, _, _⟩ := runCats_spec site site.categories
    { collected := L0, csvFile := C0, trace := [] } (fun c hc => hc)
  intro l hl
  unfold ledgerLines at hl
  obtain ⟨e, he, hline⟩ := List.mem_filterMap.mp hl
  have hee : e ∈ ext := by
    have h1 : (get_all_data site L0 C0).1.trace = ext := by
      rw [show (get_all_data site L0 C0).1.trace
        = (runCats site site.categories
            { collected := L0, csvFile := C0, trace := [] }).1.trace from rfl]
      rw [htr]
      simp
    rw [h1] at he
    exact he
  obtain ⟨c, hc, hcase⟩ := hsh e hee
  rcases hcase with hpe | hcat
  · rcases hpe with ⟨w, hw⟩ | ⟨rel, hrel, hcr⟩ | ⟨m, hm⟩
    · subst hw
      cases hline
    · subst hrel
      simp only [evLine, Option.some.injEq] at hline
      subst hline
      exact Or.inr ⟨c, hc, hcr⟩
    · subst hm
      simp only [evLine, Option.some.injEq] at hline
      subst hline
      exact Or.inl (isAbs_pagination _ m (isAbs_get_absolute_link c.2))
  · subst hcat
    simp only [evLine, Option.some.injEq] at hline
    subst hline
    exact Or.inl (isAbs_get_absolute_link c.2)

/-- C2 (amended): when `get_product_links` raises for a category's page,
`get_all_data` does not catch it: the whole run ends with that error, the
failed category's completion entry is never written (so the category is
retried on the next run), and the remaining sibling categories are not
visited in this run. -/
theorem listing_error_aborts (site : Site) (c : String × String)
    (rest : List (String × String)) (st st' : St) (e : CrawlErr)
    (h : runCategory site st c = (st', some e)) :
    runCats site (c :: rest) st = (st', some e) ∧
    ∃ ext, st'.trace = st.trace ++ ext ∧
      ∀ ev ∈ ext, ∀ cl, ev ≠ Ev.ledCat cl := by
  constructor
  · simp only [runCats]
    rw [h]
  · obtain ⟨⟨ext, htr, hsh⟩, _, _⟩ := runPages_spec site c.1 (get_absolute_link c.2)
      (site.pages (get_absolute_link c.2)) 1 st (by omega) (by simp)
    unfold runCategory at h
    dsimp only at h
    split at h
    case isTrue hc =>
      injection h with h1 h2
      cases h2
    case isFalse hc =>
      rcases hres : runPages site c.1 (get_absolute_link c.2)
          (site.pages (get_absolute_link c.2)) 1 st with ⟨st'', err⟩
      rw [hres] at h htr
      simp only at htr
      cases err with
      | none =>
        simp only at h
        injection h with h1 h2
        cases h2
      | some e' =>
        simp only at h
        injection h with h1 h2
        injection h2 with h2
        subst h1
        subst h2
        refine ⟨ext, htr, ?_⟩
        intro ev hev cl hcl
        rcases hsh ev hev with ⟨w, hw⟩ | ⟨r, hr, _⟩ | ⟨m, hm⟩
        · rw [hcl] at hw; cases hw
        · rw [hcl] at hr; cases hr
        · rw [hcl] at hm; cases hm

/-! ### Concrete sites for the counterexamples and witnesses -/

/-- A one-category, one-page, one-product site. -/
def site1 : Site where
  categories := [("Cat A; Sub 1", "/catalog/a/")]
  pages := fun l =>
    if l = "https://yacht-parts.ru/catalog/a/" then
      [PageFetch.ok ["/catalog/a/p1/"] true]
    else []
  productData := fun l =>
    if l = "https://yacht-parts.ru/catalog/a/p1/" then
      [[("article", some "A1"), ("price", some "100")]]
    else []

/-- A two-category site whose first category's listing container is
missing. -/
def site2 : Site where
  categories := [("Cat A; Sub", "/catalog/a/"), ("Cat B; Sub", "/catalog/b/")]
  pages := fun l =>
    if l = "https://yacht-parts.ru/catalog/a/" then [PageFetch.missing]
    else if l = "https://yacht-parts.ru/catalog/b/" then
      [PageFetch.ok ["/catalog/b/p1/"] true]
    else []
  productData := fun l =>
    if l = "https://yacht-parts.ru/catalog/b/p1/" then
      [[("article", some "B1")]]
    else []

/-- C2 counterexample: on `site2` the missing listing container of the
first category terminates the whole run — the error escapes
`get_all_data`, nothing is appended for the failed category, and the
second category (which has a product) is never crawled, contradicting the
claimed skip-to-next-sibling behaviour. -/
theorem listing_error_counterexample :
    (get_all_data site2 [] none).2
      = some (CrawlErr.productLinksNotFound
          "https://yacht-parts.ru/catalog/a/?PAGEN_1=1") ∧
    (get_all_data site2 [] none).1.trace = [] := by
  constructor
  · rfl
  · rfl

/-- C2 witness: the amended theorem applied to `site2`. -/
theorem listing_error_aborts_witness :
    runCats site2 site2.categories
      { collected := [], csvFile := none, trace := [] }
      = ({ collected := [], csvFile := none, trace := [] },
         some (CrawlErr.productLinksNotFound
           "https://yacht-parts.ru/catalog/a/?PAGEN_1=1")) ∧
    ∃ ext, ({ collected := [], csvFile := none, trace := [] } : St).trace
        = ({ collected := [], csvFile := none, trace := [] } : St).trace ++ ext ∧
      ∀ ev ∈ ext, ∀ cl, ev ≠ Ev.ledCat cl :=
  listing_error_aborts site2 ("Cat A; Sub", "/catalog/a/")
    [("Cat B; Sub", "/catalog/b/")]
    { collected := [], csvFile := none, trace := [] }
    { collected := [], csvFile := none, trace := [] }
    (CrawlErr.productLinksNotFound "https://yacht-parts.ru/catalog/a/?PAGEN_1=1")
    (by decide)

/-- C4 counterexample: on `site1` the product's ledger entry is the
relative href `/catalog/a/p1/` written verbatim — not an absolute URL, so
not every ledger entry is an absolute URL. -/
theorem ledger_relative_product_line :
    "/catalog/a/p1/" ∈ ledgerLines (get_all_data site1 [] none).1 ∧
    isAbs "/catalog/a/p1/" = false := by
  constructor
  · decide
  · decide

/-- C4 witness: the amended theorem applied to `site1`'s category line. -/
theorem ledger_lines_shape_witness :
    isAbs "https://yacht-parts.ru/catalog/a/" = true ∨
    ∃ c ∈ site1.categories,
      catRel site1 (get_absolute_link c.2) "https://yacht-parts.ru/catalog/a/" :=
  ledger_lines_shape site1 [] none "https://yacht-parts.ru/catalog/a/" (by decide)

/-- C3 witness: on `site1`'s run, the product ledger entry at position 1
of the trace is directly preceded by the CSV block holding that product's
row (header plus the single data row, category field set). -/
theorem ledger_after_persist_witness :
    ∃ t0 w, ([Ev.csv [Row.header fields_order,
        Row.data [("article", some "A1"), ("price", some "100"),
          ("category", some "Cat A; Sub 1")]]] : List Ev)
        = t0 ++ [Ev.csv w] ∧ WriteFor site1 "/catalog/a/p1/" w :=
  (ledger_after_persist site1 [] none (by decide)).1
    [Ev.csv [Row.header fields_order,
      Row.data [("article", some "A1"), ("price", some "100"),
        ("category", some "Cat A; Sub 1")]]]
    "/catalog/a/p1/"
    [Ev.ledPage "https://yacht-parts.ru/catalog/a/" 1,
     Ev.ledCat "https://yacht-parts.ru/catalog/a/"]
    (by decide)

end YachtParts
